import Mathlib

/-!
Verification development for the post-Newtonian corrector component of the
reboundx GR-correction material.  The repository itself ships only two tutorial
notebooks (the implementation lives in an external library), so the component
is modelled from the specification: `ParticleState`, the corrector
configuration, the constructor `add_gr`, and the two operations
`computeAccelerations` and `computeHamiltonian` with their three variants
`Full`, `SingleSource` and `Potential`.
-/

namespace RebxGR

/-- A 3-vector of rationals (real coordinates in the shallow embedding). -/
abbrev Vec3 := Fin 3 → ℚ

/-- Euclidean dot product of two 3-vectors. -/
def dot (v w : Vec3) : ℚ := v 0 * w 0 + v 1 * w 1 + v 2 * w 2

/-- Squared Euclidean norm of a 3-vector. -/
def normSq (v : Vec3) : ℚ := dot v v

/-- Modelled from the spec: a particle record of the ParticleState — mass,
position, velocity, plus the explicit per-particle source marker that the
notebooks call the gr_source flag. -/
structure Particle where
  m : ℚ
  pos : Vec3
  vel : Vec3
  gr_source : Bool
deriving DecidableEq

/-- Modelled from the spec: the three selectable approximation variants. -/
inductive Variant
  | Full
  | SingleSource
  | Potential
deriving DecidableEq

/-- Modelled from the spec: the error taxonomy of the component. -/
inductive RebxError
  | InvalidConfiguration
  | InvalidState
  | UnsupportedOperation
deriving DecidableEq

/-- Modelled from the spec: the immutable corrector configuration, fixed at
construction. -/
structure Corrector where
  G : ℚ
  c : ℚ
  variant : Variant
deriving DecidableEq

/-- Modelled from the spec: the recognized standard unit systems of the
units-to-constants lookup (the notebook shows the SI triple and the REBOUND
default of AU, solar masses and yr/2pi with G = 1). -/
inductive UnitSystem
  | mskg
  | auMsunYr2pi
deriving DecidableEq

/-- Modelled from the spec: the units-to-constants lookup giving the speed of
light in each recognized unit system.  The SI value is the one the notebook
prints (2.997804e+08 m/s); the default-unit value is the constants-module C in
AU per yr/2pi. -/
def unitsToC : UnitSystem → ℚ
  | .mskg => 299780400
  | .auMsunYr2pi => 1006532 / 100

/-- Modelled from the spec: the slice of the host simulation visible to the
corrector at construction time — its gravitational constant G and its
(optionally declared) unit system. -/
structure SimConfig where
  G : ℚ
  units : Option UnitSystem
deriving DecidableEq

/-- Modelled from the spec: construction of the corrector (add_gr).  With an
explicit c it checks positivity of c and G only.  With no c it derives c from
a declared recognized unit system, and otherwise refuses to proceed with the
stale default c whenever the host G differs from the default standard's
expected value G = 1 (the notebook: calling add_gr with a changed G and no c
is an error). -/
def add_gr (sim : SimConfig) (cOpt : Option ℚ) (variant : Variant) :
    Except RebxError Corrector :=
  match cOpt with
  | some c =>
      if c ≤ 0 ∨ sim.G ≤ 0 then .error .InvalidConfiguration
      else .ok ⟨sim.G, c, variant⟩
  | none =>
      match sim.units with
      | some u =>
          if sim.G ≤ 0 then .error .InvalidConfiguration
          else .ok ⟨sim.G, unitsToC u, variant⟩
      | none =>
          if sim.G = 1 then .ok ⟨1, unitsToC .auMsunYr2pi, variant⟩
          else .error .InvalidConfiguration

/-- Shape of the velocity-dependent pairwise post-Newtonian acceleration term
(arguments: G, c, test particle, source particle).  The spec leaves the exact
Benitez-Gallardo coefficients to the external reference, so the operations are
parametric in this term. -/
abbrev PairTerm := ℚ → ℚ → Particle → Particle → Vec3

/-- Shape of the pairwise scalar term of the Hamiltonian (Newtonian potential
plus post-Newtonian correction), likewise left parametric by the spec. -/
abbrev HamTerm := ℚ → ℚ → Particle → Particle → ℚ

/-- A concrete representative pairwise acceleration term, used to instantiate
the parametric operations on concrete inputs. -/
def samplePairTerm (G c : ℚ) (t src : Particle) : Vec3 :=
  let d : Vec3 := t.pos - src.pos;
  (G * src.m / (c ^ 2 * normSq d ^ 2) *
    (4 * G * src.m - normSq d * dot t.vel t.vel)) • d +
    (4 * G * src.m / (c ^ 2 * normSq d ^ 2) * dot d t.vel) • t.vel

/-- A concrete representative pairwise Hamiltonian term. -/
def sampleHamTerm (G c : ℚ) (t src : Particle) : ℚ :=
  let d : Vec3 := t.pos - src.pos;
  -(G * t.m * src.m / normSq d) * (1 + dot t.vel t.vel / c ^ 2)

/-- Modelled from the spec: the Potential-variant acceleration on a test
particle displaced by d from the single source of mass msrc — the gradient of
a velocity-independent modified effective potential around the source
(no velocity terms enter). -/
def potentialAccel (G c msrc : ℚ) (d : Vec3) : Vec3 :=
  (-6 * G ^ 2 * msrc ^ 2 / (c ^ 2 * normSq d ^ 2)) • d

/-- Modelled from the spec: source designation for the single-source variants —
the particle carrying the explicit gr_source marker when one is present,
defaulting to index 0 otherwise. -/
def sourceIndex {n : ℕ} (s : Fin n → Particle) : Option (Fin n) :=
  match (List.finRange n).find? (fun i => (s i).gr_source) with
  | some i => some i
  | none => (List.finRange n).head?

/-- Guard for the Full variant: no test particle coincides with any source
(a particle of positive mass). -/
abbrev noCoincidence {n : ℕ} (s : Fin n → Particle) : Prop :=
  ∀ i j : Fin n, i ≠ j → 0 < (s j).m → (s i).pos ≠ (s j).pos

/-- Guard for the single-source variants: the designated source has positive
mass and no other particle coincides with it. -/
abbrev sourceOK {n : ℕ} (s : Fin n → Particle) (k : Fin n) : Prop :=
  0 < (s k).m ∧ ∀ i : Fin n, i ≠ k → (s i).pos ≠ (s k).pos

/-- Contribution of source j to the Full-variant acceleration of test particle
i: the pairwise term when j is a source (positive mass) distinct from i, and
zero otherwise. -/
def fullContrib (f : PairTerm) (G c : ℚ) {n : ℕ} (s : Fin n → Particle)
    (i j : Fin n) : Vec3 :=
  if i ≠ j ∧ 0 < (s j).m then f G c (s i) (s j) else 0

/-- Full-variant acceleration field: each particle receives the sum over all
sources, taken in ascending index order. -/
def fullAccel (f : PairTerm) (G c : ℚ) {n : ℕ} (s : Fin n → Particle) :
    Fin n → Vec3 :=
  fun i => ∑ j : Fin n, fullContrib f G c s i j

/-- Single-source acceleration field for a pairwise term g and designated
source k: every other particle is accelerated relative to the source, and the
source receives the momentum-conserving back-reaction (which divides by the
source mass). -/
def singleAccel (g : Particle → Particle → Vec3) {n : ℕ} (s : Fin n → Particle)
    (k : Fin n) : Fin n → Vec3 :=
  fun i =>
    if i = k then
      (-(1 / (s k).m)) • ∑ j : Fin n, (if j = k then 0 else (s j).m • g (s j) (s k))
    else g (s i) (s k)

/-- Single-source evaluation: resolve the designated source, check the guards,
and either return the acceleration field or fail with InvalidState. -/
def singleCompute (g : Particle → Particle → Vec3) {n : ℕ} (s : Fin n → Particle) :
    Except RebxError (Fin n → Vec3) :=
  match sourceIndex s with
  | none => .error .InvalidState
  | some k =>
      if sourceOK s k then .ok (singleAccel g s k)
      else .error .InvalidState

/-- Modelled from the spec: computeAccelerations — pure evaluation of the
per-particle post-Newtonian acceleration corrections under the configured
variant, failing with InvalidState on degenerate input. -/
def computeAccelerations (f : PairTerm) (cor : Corrector) {n : ℕ}
    (s : Fin n → Particle) : Except RebxError (Fin n → Vec3) :=
  match cor.variant with
  | .Full =>
      if noCoincidence s then .ok (fullAccel f cor.G cor.c s)
      else .error .InvalidState
  | .SingleSource =>
      singleCompute (fun t src => f cor.G cor.c t src) s
  | .Potential =>
      singleCompute
        (fun t src => potentialAccel cor.G cor.c src.m (t.pos - src.pos)) s

/-- Kinetic part of the Hamiltonian. -/
def kineticEnergy {n : ℕ} (s : Fin n → Particle) : ℚ :=
  ∑ i : Fin n, (s i).m * dot (s i).vel (s i).vel / 2

/-- Modelled from the spec: computeHamiltonian — defined for Full and
SingleSource only; Potential fails with UnsupportedOperation.  The pairwise
potential-plus-correction scalar term is parametric (its 1/r form is left to
the external reference by the spec). -/
def computeHamiltonian (h : HamTerm) (cor : Corrector) {n : ℕ}
    (s : Fin n → Particle) : Except RebxError ℚ :=
  match cor.variant with
  | .Potential => .error .UnsupportedOperation
  | .Full =>
      if noCoincidence s then
        .ok (kineticEnergy s +
          ∑ i : Fin n, ∑ j : Fin n,
            (if i ≠ j ∧ 0 < (s j).m then h cor.G cor.c (s i) (s j) else 0))
      else .error .InvalidState
  | .SingleSource =>
      match sourceIndex s with
      | none => .error .InvalidState
      | some k =>
          if sourceOK s k then
            .ok (kineticEnergy s +
              ∑ i : Fin n, (if i = k then 0 else h cor.G cor.c (s i) (s k)))
          else .error .InvalidState

/-- Validity of a ParticleState for a given configuration: the guard of the
configured variant holds (for the single-source variants, a designated source
exists, has positive mass, and coincides with no other particle). -/
abbrev validState (cor : Corrector) {n : ℕ} (s : Fin n → Particle) : Prop :=
  (cor.variant = Variant.Full → noCoincidence s) ∧
    (cor.variant ≠ Variant.Full →
      ∃ k : Fin n, sourceIndex s = some k ∧ sourceOK s k)

/-- Modelled from the spec: the observable outcome of one computeAccelerations
call — the returned result together with the configuration and state as the
caller sees them after the call (the operation is a pure function, so both are
returned unchanged). -/
def callAccel (f : PairTerm) (cor : Corrector) {n : ℕ} (s : Fin n → Particle) :
    Except RebxError (Fin n → Vec3) × Corrector × (Fin n → Particle) :=
  (computeAccelerations f cor s, cor, s)

/-- Modelled from the spec: the observable outcome of one computeHamiltonian
call, analogous to callAccel. -/
def callHamiltonian (h : HamTerm) (cor : Corrector) {n : ℕ} (s : Fin n → Particle) :
    Except RebxError ℚ × Corrector × (Fin n → Particle) :=
  (computeHamiltonian h cor s, cor, s)

/-- Concrete star particle carrying the gr_source marker (concrete inputs for
instantiating the theorems). -/
def pStar : Particle :=
  ⟨1, ![0, 0, 0], ![0, 0, 0], true⟩

/-- Concrete Mercury-like test particle. -/
def pPlanet : Particle :=
  ⟨166013 / 10 ^ 12, ![387098 / 10 ^ 6, 0, 0], ![0, 2, 0], false⟩

/-- Concrete two-particle state: marked star at index 0, planet at index 1. -/
def state2 : Fin 2 → Particle := ![pStar, pPlanet]

/-- Concrete two-particle state with the planet at a different velocity. -/
def state2v : Fin 2 → Particle :=
  ![pStar, ⟨166013 / 10 ^ 12, ![387098 / 10 ^ 6, 0, 0], ![1, 0, 1], false⟩]

/-- Concrete SI-like host simulation with a changed G and no declared units. -/
def simSIbare : SimConfig := ⟨667408 / 10 ^ 16, none⟩

/-- Concrete host simulation with declared SI units. -/
def simSIunits : SimConfig := ⟨667408 / 10 ^ 16, some UnitSystem.mskg⟩

/-- Concrete corrector configuration for the SingleSource variant in default
units. -/
def corSingle : Corrector := ⟨1, 1006532 / 100, Variant.SingleSource⟩

/-- Concrete corrector configuration for the Potential variant in default
units. -/
def corPotential : Corrector := ⟨1, 1006532 / 100, Variant.Potential⟩

/-- Concrete corrector configuration for the Full variant in default units. -/
def corFull : Corrector := ⟨1, 1006532 / 100, Variant.Full⟩

/-- The swap of the two indices of a two-particle state. -/
def permSwap01 : Equiv.Perm (Fin 2) := Equiv.swap 0 1

/-- The designated source of the concrete two-particle state is the marked
star at index 0. -/
lemma state2_source : sourceIndex state2 = some 0 := by decide

/-- The guards of the single-source variants hold on the concrete two-particle
state. -/
lemma state2_sourceOK : sourceOK state2 0 := by
  constructor
  · norm_num [state2, pStar]
  · intro i hi
    fin_cases i
    · simp at hi
    · norm_num [state2, pStar, pPlanet]
      intro hcon
      have h0 := congrFun hcon 0
      norm_num at h0

/-- Resolving the guards: single-source evaluation succeeds exactly on the
guard. -/
lemma singleCompute_ok (g : Particle → Particle → Vec3) {n : ℕ}
    (s : Fin n → Particle) (k : Fin n) (hk : sourceIndex s = some k)
    (hok : sourceOK s k) :
    singleCompute g s = Except.ok (singleAccel g s k) := by
  unfold singleCompute
  rw [hk]
  exact if_pos hok

/-- Single-source evaluation fails with InvalidState when the guard fails. -/
lemma singleCompute_error (g : Particle → Particle → Vec3) {n : ℕ}
    (s : Fin n → Particle) (k : Fin n) (hk : sourceIndex s = some k)
    (hbad : ¬ sourceOK s k) :
    singleCompute g s = Except.error RebxError.InvalidState := by
  unfold singleCompute
  rw [hk]
  exact if_neg hbad

/-- C1: constructing the corrector with the speed of light c left at its
default while the host simulation's G has been changed from the recognized
default standard's expected value (G = 1, with no recognized unit system
declared) fails with InvalidConfiguration and produces no usable corrector
instance. -/
theorem add_gr_default_c_unit_mismatch (sim : SimConfig) (variant : Variant)
    (hunits : sim.units = none) (hG : sim.G ≠ 1) :
    add_gr sim none variant = Except.error RebxError.InvalidConfiguration ∧
      ∀ cor : Corrector, add_gr sim none variant ≠ Except.ok cor := by
  have h1 : add_gr sim none variant = Except.error RebxError.InvalidConfiguration := by
    unfold add_gr
    rw [hunits]
    exact if_neg hG
  refine ⟨h1, fun cor hc => ?_⟩
  rw [h1] at hc
  exact Except.noConfusion hc

/-- Witness for C1 at the notebook's SI scenario: G set to 6.67408e-11 with no
declared unit system and no explicit c. -/
theorem add_gr_default_c_unit_mismatch_witness :
    simSIbare.units = none ∧ simSIbare.G ≠ 1 ∧
      add_gr simSIbare none Variant.Full = Except.error RebxError.InvalidConfiguration :=
  ⟨rfl, by norm_num [simSIbare],
    (add_gr_default_c_unit_mismatch simSIbare Variant.Full rfl
      (by norm_num [simSIbare])).1⟩

/-- C4: every configuration with c ≤ 0 (explicitly supplied) or G ≤ 0 makes
corrector construction fail with InvalidConfiguration, producing no usable
instance. -/
theorem add_gr_nonpositive_constants_fail (sim : SimConfig) (cOpt : Option ℚ)
    (variant : Variant) (h : (∃ c, cOpt = some c ∧ c ≤ 0) ∨ sim.G ≤ 0) :
    add_gr sim cOpt variant = Except.error RebxError.InvalidConfiguration ∧
      ∀ cor : Corrector, add_gr sim cOpt variant ≠ Except.ok cor := by
  have h1 : add_gr sim cOpt variant = Except.error RebxError.InvalidConfiguration := by
    match cOpt with
    | some c =>
        unfold add_gr
        refine if_pos ?_
        rcases h with ⟨c2, hc2, hle⟩ | hG
        · exact Or.inl (by injection hc2 with hh; rw [← hh] at hle; exact hle)
        · exact Or.inr hG
    | none =>
        have hG : sim.G ≤ 0 := by
          rcases h with ⟨c2, hc2, _⟩ | hG
          · exact Option.noConfusion hc2
          · exact hG
        unfold add_gr
        cases hu : sim.units with
        | some u => exact if_pos hG
        | none => exact if_neg (fun h1 => by rw [h1] at hG; norm_num at hG)
  refine ⟨h1, fun cor hc => ?_⟩
  rw [h1] at hc
  exact Except.noConfusion hc

/-- Witness for C4: an explicitly supplied non-positive c. -/
theorem add_gr_nonpositive_constants_fail_witness :
    ((∃ c, (some (-1 : ℚ)) = some c ∧ c ≤ 0) ∨ (SimConfig.mk 1 none).G ≤ 0) ∧
      add_gr ⟨1, none⟩ (some (-1)) Variant.Full =
        Except.error RebxError.InvalidConfiguration :=
  ⟨Or.inl ⟨-1, rfl, by norm_num⟩,
    (add_gr_nonpositive_constants_fail ⟨1, none⟩ (some (-1)) Variant.Full
      (Or.inl ⟨-1, rfl, by norm_num⟩)).1⟩

/-- C7: with a recognized standard unit system declared and no explicit c,
construction succeeds and derives c via the units-to-constants lookup; the
value for the ('m','s','kg') system is the speed of light in SI units,
about 2.998e8. -/
theorem add_gr_derives_c_from_units (sim : SimConfig) (variant : Variant)
    (u : UnitSystem) (hu : sim.units = some u) (hG : 0 < sim.G) :
    add_gr sim none variant = Except.ok ⟨sim.G, unitsToC u, variant⟩ ∧
      0 < unitsToC u ∧ unitsToC UnitSystem.mskg = 299780400 := by
  refine ⟨?_, ?_, rfl⟩
  · unfold add_gr
    rw [hu]
    exact if_neg (not_le.mpr hG)
  · cases u <;> norm_num [unitsToC]

/-- Witness for C7 at the notebook's SI-units scenario. -/
theorem add_gr_derives_c_from_units_witness :
    simSIunits.units = some UnitSystem.mskg ∧ 0 < simSIunits.G ∧
      add_gr simSIunits none Variant.Full =
        Except.ok ⟨simSIunits.G, unitsToC UnitSystem.mskg, Variant.Full⟩ :=
  ⟨rfl, by norm_num [simSIunits],
    (add_gr_derives_c_from_units simSIunits Variant.Full UnitSystem.mskg rfl
      (by norm_num [simSIunits])).1⟩

/-- C10: an explicitly supplied positive c always bypasses the unit-mismatch
check — construction succeeds for every positive G — and a construction with
an explicit c can fail with InvalidConfiguration only because c ≤ 0 or G ≤ 0,
never because of a unit mismatch; the mismatch failure requires c left at its
default. -/
theorem add_gr_explicit_c_bypasses_mismatch (sim : SimConfig) (variant : Variant)
    (c : ℚ) (hc : 0 < c) (hG : 0 < sim.G) :
    add_gr sim (some c) variant = Except.ok ⟨sim.G, c, variant⟩ ∧
      ∀ (sim2 : SimConfig) (v2 : Variant) (c2 : ℚ),
        add_gr sim2 (some c2) v2 = Except.error RebxError.InvalidConfiguration →
          c2 ≤ 0 ∨ sim2.G ≤ 0 := by
  constructor
  · unfold add_gr
    refine if_neg ?_
    rintro (h1 | h2)
    · exact absurd hc (not_lt.mpr h1)
    · exact absurd hG (not_lt.mpr h2)
  · intro sim2 v2 c2 herr
    by_contra hcon
    push_neg at hcon
    have hok : add_gr sim2 (some c2) v2 = Except.ok ⟨sim2.G, c2, v2⟩ := by
      unfold add_gr
      refine if_neg ?_
      rintro (h1 | h2)
      · exact absurd hcon.1 (not_lt.mpr h1)
      · exact absurd hcon.2 (not_lt.mpr h2)
    rw [hok] at herr
    exact Except.noConfusion herr

/-- Witness for C10 at the notebook scenario: explicit c = 3e8 with the SI G in
place (changed from the default standard's G = 1). -/
theorem add_gr_explicit_c_bypasses_mismatch_witness :
    0 < (300000000 : ℚ) ∧ 0 < simSIbare.G ∧
      add_gr simSIbare (some 300000000) Variant.Full =
        Except.ok ⟨simSIbare.G, 300000000, Variant.Full⟩ :=
  ⟨by norm_num, by norm_num [simSIbare],
    (add_gr_explicit_c_bypasses_mismatch simSIbare Variant.Full 300000000
      (by norm_num) (by norm_num [simSIbare])).1⟩

/-- C8: computeAccelerations and computeHamiltonian are pure — a call returns
the configuration and the input state unchanged, two calls on equal inputs
with equal configuration return equal results, and a later call is unaffected
by any earlier call (no retained history). -/
theorem corrector_calls_pure (f : PairTerm) (h : HamTerm) (cor : Corrector)
    {n : ℕ} (s : Fin n → Particle) :
    (callAccel f cor s).2.1 = cor ∧ (callAccel f cor s).2.2 = s ∧
      (callHamiltonian h cor s).2.1 = cor ∧ (callHamiltonian h cor s).2.2 = s ∧
      (∀ (cor2 : Corrector) (s2 : Fin n → Particle), cor2 = cor → s2 = s →
        (callAccel f cor2 s2).1 = (callAccel f cor s).1 ∧
          (callHamiltonian h cor2 s2).1 = (callHamiltonian h cor s).1) ∧
      ∀ s1 : Fin n → Particle,
        (callAccel f (callAccel f cor s1).2.1 s).1 = (callAccel f cor s).1 := by
  refine ⟨rfl, rfl, rfl, rfl, ?_, fun s1 => rfl⟩
  rintro cor2 s2 rfl rfl
  exact ⟨rfl, rfl⟩

/-- Witness for C8 at a concrete configuration and state. -/
theorem corrector_calls_pure_witness :
    (callAccel samplePairTerm corSingle state2).2.1 = corSingle ∧
      (callAccel samplePairTerm corSingle state2).2.2 = state2 :=
  ⟨(corrector_calls_pure samplePairTerm sampleHamTerm corSingle state2).1,
    (corrector_calls_pure samplePairTerm sampleHamTerm corSingle state2).2.1⟩

/-- Degenerate input makes single-source evaluation fail with InvalidState,
and the guard makes it succeed. -/
lemma singleCompute_guard_cases (g : Particle → Particle → Vec3) {n : ℕ}
    (s : Fin n → Particle) :
    (∀ k : Fin n, sourceIndex s = some k →
        ((s k).m ≤ 0 ∨ ∃ i : Fin n, i ≠ k ∧ (s i).pos = (s k).pos) →
        singleCompute g s = Except.error RebxError.InvalidState) ∧
      ((∃ k, sourceIndex s = some k ∧ sourceOK s k) →
        ∃ a, singleCompute g s = Except.ok a) := by
  constructor
  · intro k hk hbad
    refine singleCompute_error g s k hk ?_
    rintro ⟨hpos, hsep⟩
    rcases hbad with hle | ⟨i, hik, hcoin⟩
    · exact absurd hpos (not_lt.mpr hle)
    · exact hsep i hik hcoin
  · rintro ⟨k, hk, hok⟩
    exact ⟨_, singleCompute_ok g s k hk hok⟩

/-- The single-source variants of the corrector hold a valid state on the
concrete two-particle state. -/
lemma validState_potential_state2 : validState corPotential state2 := by
  constructor
  · intro hv
    exact absurd hv (by decide)
  · intro _
    exact ⟨0, state2_source, state2_sourceOK⟩

/-- C5: computeAccelerations fails with InvalidState whenever a mass the
formula divides by is non-positive (in particular a non-positive-mass
designated source under SingleSource/Potential) or a test particle coincides
with its source; under the precondition that those masses are positive and the
separations nonzero the error branch is unreachable and a result is
returned. -/
theorem computeAccelerations_invalidState_guards (f : PairTerm) (cor : Corrector)
    {n : ℕ} (s : Fin n → Particle) :
    (cor.variant ≠ Variant.Full → ∀ k : Fin n, sourceIndex s = some k →
        ((s k).m ≤ 0 ∨ ∃ i : Fin n, i ≠ k ∧ (s i).pos = (s k).pos) →
        computeAccelerations f cor s = Except.error RebxError.InvalidState) ∧
      (cor.variant = Variant.Full →
        (∃ i j : Fin n, i ≠ j ∧ 0 < (s j).m ∧ (s i).pos = (s j).pos) →
        computeAccelerations f cor s = Except.error RebxError.InvalidState) ∧
      (validState cor s → ∃ a, computeAccelerations f cor s = Except.ok a) := by
  obtain ⟨G, c, v⟩ := cor
  cases v with
  | Full =>
    refine ⟨fun hne => absurd rfl hne, fun _ hbad => ?_, fun hvalid => ?_⟩
    · refine if_neg ?_
      intro hno
      obtain ⟨i, j, hij, hm, hpos⟩ := hbad
      exact hno i j hij hm hpos
    · exact ⟨_, if_pos (hvalid.1 rfl)⟩
  | SingleSource =>
    refine ⟨fun _ => (singleCompute_guard_cases _ s).1, ?_, ?_⟩
    · intro hv
      exact nomatch hv
    · intro hvalid
      exact (singleCompute_guard_cases _ s).2 (hvalid.2 fun hh => nomatch hh)
  | Potential =>
    refine ⟨fun _ => (singleCompute_guard_cases _ s).1, ?_, ?_⟩
    · intro hv
      exact nomatch hv
    · intro hvalid
      exact (singleCompute_guard_cases _ s).2 (hvalid.2 fun hh => nomatch hh)

/-- Witness for C5: on the valid concrete two-particle state the Potential
variant takes the non-error branch. -/
theorem computeAccelerations_invalidState_guards_witness :
    validState corPotential state2 ∧
      ∃ a, computeAccelerations samplePairTerm corPotential state2 = Except.ok a :=
  ⟨validState_potential_state2,
    (computeAccelerations_invalidState_guards samplePairTerm corPotential
      state2).2.2 validState_potential_state2⟩

/-- C6: computeHamiltonian fails with UnsupportedOperation exactly when the
variant is Potential, and for the Full and SingleSource variants it returns a
scalar on every valid ParticleState. -/
theorem computeHamiltonian_unsupported_iff_potential (h : HamTerm) (cor : Corrector)
    {n : ℕ} (s : Fin n → Particle) :
    (computeHamiltonian h cor s = Except.error RebxError.UnsupportedOperation ↔
        cor.variant = Variant.Potential) ∧
      (cor.variant ≠ Variant.Potential → validState cor s →
        ∃ x : ℚ, computeHamiltonian h cor s = Except.ok x) := by
  obtain ⟨G, c, v⟩ := cor
  cases v with
  | Potential =>
    exact ⟨⟨fun _ => rfl, fun _ => rfl⟩, fun hne => absurd rfl hne⟩
  | Full =>
    constructor
    · constructor
      · intro herr
        exfalso
        by_cases hno : noCoincidence s
        · have hgoal : ∃ x, computeHamiltonian h ⟨G, c, Variant.Full⟩ s = Except.ok x :=
            ⟨_, if_pos hno⟩
          obtain ⟨x, hx⟩ := hgoal
          rw [herr] at hx
          exact Except.noConfusion hx
        · have hgoal : computeHamiltonian h ⟨G, c, Variant.Full⟩ s =
              Except.error RebxError.InvalidState := if_neg hno
          rw [herr] at hgoal
          injection hgoal with h2
          exact RebxError.noConfusion h2
      · intro hv
        exact nomatch hv
    · intro _ hvalid
      exact ⟨_, if_pos (hvalid.1 rfl)⟩
  | SingleSource =>
    constructor
    · constructor
      · intro herr
        exfalso
        cases hk : sourceIndex s with
        | none =>
          have hgoal : computeHamiltonian h ⟨G, c, Variant.SingleSource⟩ s =
              Except.error RebxError.InvalidState := by
            unfold computeHamiltonian
            rw [hk]
          rw [herr] at hgoal
          injection hgoal with h2
          exact RebxError.noConfusion h2
        | some k =>
          by_cases hok : sourceOK s k
          · have hgoal : ∃ x, computeHamiltonian h ⟨G, c, Variant.SingleSource⟩ s =
                Except.ok x := ⟨_, by unfold computeHamiltonian; rw [hk]; exact if_pos hok⟩
            obtain ⟨x, hx⟩ := hgoal
            rw [herr] at hx
            exact Except.noConfusion hx
          · have hgoal : computeHamiltonian h ⟨G, c, Variant.SingleSource⟩ s =
                Except.error RebxError.InvalidState := by
              unfold computeHamiltonian
              rw [hk]
              exact if_neg hok
            rw [herr] at hgoal
            injection hgoal with h2
            exact RebxError.noConfusion h2
      · intro hv
        exact nomatch hv
    · intro _ hvalid
      obtain ⟨k, hk, hok⟩ := hvalid.2 fun hh => nomatch hh
      exact ⟨_, by unfold computeHamiltonian; rw [hk]; exact if_pos hok⟩

/-- Witness for C6: the SingleSource variant returns a scalar on the concrete
two-particle state. -/
theorem computeHamiltonian_unsupported_iff_potential_witness :
    corSingle.variant ≠ Variant.Potential ∧
      ∃ x : ℚ, computeHamiltonian sampleHamTerm corSingle state2 = Except.ok x :=
  ⟨by decide,
    (computeHamiltonian_unsupported_iff_potential sampleHamTerm corSingle state2).2
      (by decide)
      ⟨fun hv => absurd hv (by decide), fun _ => ⟨0, state2_source, state2_sourceOK⟩⟩⟩

/-- Evaluation of the single-source variants depends only on the masses,
positions and source markers of the state, given a pairwise term that reads
only masses and positions. -/
lemma singleCompute_congr (g : Particle → Particle → Vec3)
    (hg : ∀ p q p2 q2 : Particle, p.m = p2.m → p.pos = p2.pos → q.m = q2.m →
      q.pos = q2.pos → g p q = g p2 q2)
    {n : ℕ} (s s2 : Fin n → Particle)
    (hm : ∀ i, (s i).m = (s2 i).m) (hp : ∀ i, (s i).pos = (s2 i).pos)
    (hf : ∀ i, (s i).gr_source = (s2 i).gr_source) :
    singleCompute g s = singleCompute g s2 := by
  have hsi : sourceIndex s = sourceIndex s2 := by
    unfold sourceIndex
    rw [show (fun i => (s i).gr_source) = (fun i => (s2 i).gr_source) from funext hf]
  cases hk : sourceIndex s2 with
  | none =>
    have hk1 : sourceIndex s = none := hsi.trans hk
    unfold singleCompute
    rw [hk1, hk]
  | some k =>
    have hk1 : sourceIndex s = some k := hsi.trans hk
    have hok : sourceOK s k ↔ sourceOK s2 k := by
      unfold sourceOK
      constructor
      · rintro ⟨h1, h2⟩
        refine ⟨by rw [← hm k]; exact h1, fun i hi => by rw [← hp i, ← hp k]; exact h2 i hi⟩
      · rintro ⟨h1, h2⟩
        refine ⟨by rw [hm k]; exact h1, fun i hi => by rw [hp i, hp k]; exact h2 i hi⟩
    by_cases h2 : sourceOK s2 k
    · rw [singleCompute_ok g s k hk1 (hok.mpr h2), singleCompute_ok g s2 k hk h2]
      congr 1
      funext i
      simp only [singleAccel]
      by_cases hi : i = k
      · rw [if_pos hi, if_pos hi, hm k]
        congr 1
        refine Finset.sum_congr rfl fun j _ => ?_
        by_cases hj : j = k
        · rw [if_pos hj, if_pos hj]
        · rw [if_neg hj, if_neg hj, hm j,
            hg (s j) (s k) (s2 j) (s2 k) (hm j) (hp j) (hm k) (hp k)]
      · rw [if_neg hi, if_neg hi]
        exact hg (s i) (s k) (s2 i) (s2 k) (hm i) (hp i) (hm k) (hp k)
    · rw [singleCompute_error g s k hk1 (fun hh => h2 (hok.mp hh)),
        singleCompute_error g s2 k hk h2]

/-- C3: the Potential variant is velocity-independent — two states agreeing on
all masses, positions and source markers, differing only in velocities, give
identical acceleration results. -/
theorem computeAccelerations_potential_velocity_independent (f : PairTerm)
    (cor : Corrector) {n : ℕ} (s s2 : Fin n → Particle)
    (hvar : cor.variant = Variant.Potential)
    (hagree : ∀ i, (s i).m = (s2 i).m ∧ (s i).pos = (s2 i).pos ∧
      (s i).gr_source = (s2 i).gr_source) :
    computeAccelerations f cor s = computeAccelerations f cor s2 := by
  obtain ⟨G, c, v⟩ := cor
  cases hvar
  refine singleCompute_congr _ ?_ s s2
    (fun i => (hagree i).1) (fun i => (hagree i).2.1) (fun i => (hagree i).2.2)
  intro p q p2 q2 hm1 hp1 hm2 hp2
  rw [show p.pos - q.pos = p2.pos - q2.pos from by rw [hp1, hp2], hm2]

/-- Witness for C3: the concrete two-particle states differing only in the
planet's velocity give identical Potential-variant results. -/
theorem computeAccelerations_potential_velocity_independent_witness :
    (∀ i, (state2 i).m = (state2v i).m ∧ (state2 i).pos = (state2v i).pos ∧
        (state2 i).gr_source = (state2v i).gr_source) ∧
      computeAccelerations samplePairTerm corPotential state2 =
        computeAccelerations samplePairTerm corPotential state2v := by
  have hagree : ∀ i, (state2 i).m = (state2v i).m ∧
      (state2 i).pos = (state2v i).pos ∧
      (state2 i).gr_source = (state2v i).gr_source := by
    intro i
    fin_cases i <;> exact ⟨rfl, rfl, rfl⟩
  exact ⟨hagree, computeAccelerations_potential_velocity_independent
    samplePairTerm corPotential state2 state2v rfl hagree⟩

/-- When exactly one particle carries the gr_source marker, source designation
resolves to that particle, regardless of where it sits in the sequence. -/
lemma sourceIndex_eq_of_unique {n : ℕ} (s : Fin n → Particle) (k : Fin n)
    (hk : (s k).gr_source = true) (hu : ∀ j, (s j).gr_source = true → j = k) :
    sourceIndex s = some k := by
  unfold sourceIndex
  cases hf : (List.finRange n).find? (fun i => (s i).gr_source) with
  | none =>
    exfalso
    have h1 := List.find?_eq_none.mp hf k (List.mem_finRange k)
    exact h1 hk
  | some j =>
    have hj := List.find?_some hf
    rw [hu j hj]

/-- The Full-variant coincidence guard is invariant under permutation of the
particle sequence. -/
lemma noCoincidence_comp {n : ℕ} (s : Fin n → Particle) (e : Equiv.Perm (Fin n)) :
    noCoincidence (s ∘ ⇑e) ↔ noCoincidence s := by
  constructor
  · intro h i j hij hm
    have hne : e.symm i ≠ e.symm j := fun hh => hij (e.symm.injective hh)
    have hm2 : 0 < ((s ∘ ⇑e) (e.symm j)).m := by
      simpa only [Function.comp_apply, Equiv.apply_symm_apply] using hm
    have h3 := h (e.symm i) (e.symm j) hne hm2
    simpa only [Function.comp_apply, Equiv.apply_symm_apply] using h3
  · intro h i j hij hm
    exact h (e i) (e j) (fun hh => hij (e.injective hh)) hm

/-- Pairwise Full-variant contributions commute with permutation of the
sequence. -/
lemma fullContrib_comp (f : PairTerm) (G c : ℚ) {n : ℕ} (s : Fin n → Particle)
    (e : Equiv.Perm (Fin n)) (i j : Fin n) :
    fullContrib f G c (s ∘ ⇑e) i j = fullContrib f G c s (e i) (e j) := by
  unfold fullContrib
  exact if_congr (and_congr e.injective.ne_iff.symm Iff.rfl) rfl rfl

/-- The Full-variant acceleration of a particle is unchanged when the sequence
is permuted, up to relabelling by the permutation. -/
lemma fullAccel_comp (f : PairTerm) (G c : ℚ) {n : ℕ} (s : Fin n → Particle)
    (e : Equiv.Perm (Fin n)) (i : Fin n) :
    fullAccel f G c (s ∘ ⇑e) i = fullAccel f G c s (e i) := by
  unfold fullAccel
  rw [show (∑ j : Fin n, fullContrib f G c (s ∘ ⇑e) i j) =
      ∑ j : Fin n, fullContrib f G c s (e i) (e j) from
    Finset.sum_congr rfl fun j _ => fullContrib_comp f G c s e i j]
  exact Equiv.sum_comp e (fullContrib f G c s (e i))

/-- The single-source guard is invariant under permutation of the sequence. -/
lemma sourceOK_comp {n : ℕ} (s : Fin n → Particle) (e : Equiv.Perm (Fin n))
    (k : Fin n) : sourceOK (s ∘ ⇑e) (e.symm k) ↔ sourceOK s k := by
  unfold sourceOK
  constructor
  · rintro ⟨h1, h2⟩
    refine ⟨?_, ?_⟩
    · simpa only [Function.comp_apply, Equiv.apply_symm_apply] using h1
    · intro i hi
      have hne : e.symm i ≠ e.symm k := fun hh => hi (e.symm.injective hh)
      have h3 := h2 (e.symm i) hne
      simpa only [Function.comp_apply, Equiv.apply_symm_apply] using h3
  · rintro ⟨h1, h2⟩
    refine ⟨?_, ?_⟩
    · simpa only [Function.comp_apply, Equiv.apply_symm_apply] using h1
    · intro i hi
      have hne : e i ≠ k := fun hh => hi (by rw [← hh, Equiv.symm_apply_apply])
      have h3 := h2 (e i) hne
      simpa only [Function.comp_apply, Equiv.apply_symm_apply] using h3

/-- The single-source acceleration field commutes with permutation of the
sequence, with the designated source relabelled along the permutation. -/
lemma singleAccel_comp (g : Particle → Particle → Vec3) {n : ℕ}
    (s : Fin n → Particle) (e : Equiv.Perm (Fin n)) (k : Fin n) (i : Fin n) :
    singleAccel g (s ∘ ⇑e) (e.symm k) i = singleAccel g s k (e i) := by
  unfold singleAccel
  by_cases hi : i = e.symm k
  · have he : e i = k := by rw [hi, Equiv.apply_symm_apply]
    rw [if_pos hi, if_pos he]
    simp only [Function.comp_apply, Equiv.apply_symm_apply]
    congr 1
    rw [← Equiv.sum_comp e (fun j => if j = k then (0 : Vec3) else (s j).m • g (s j) (s k))]
    refine Finset.sum_congr rfl fun j _ => ?_
    exact if_congr (Equiv.eq_symm_apply e) rfl rfl
  · have he : e i ≠ k := fun hh => hi (by rw [← hh, Equiv.symm_apply_apply])
    rw [if_neg hi, if_neg he]
    simp only [Function.comp_apply, Equiv.apply_symm_apply]

/-- Single-source evaluation commutes with permutation of the sequence when
the source is designated by a unique explicit marker. -/
lemma singleCompute_comp (g : Particle → Particle → Vec3) {n : ℕ}
    (s : Fin n → Particle) (e : Equiv.Perm (Fin n)) (k : Fin n)
    (hk : (s k).gr_source = true) (hu : ∀ j, (s j).gr_source = true → j = k) :
    singleCompute g (s ∘ ⇑e) = Except.map (fun a => a ∘ ⇑e) (singleCompute g s) := by
  have h1 : sourceIndex s = some k := sourceIndex_eq_of_unique s k hk hu
  have h2 : sourceIndex (s ∘ ⇑e) = some (e.symm k) := by
    refine sourceIndex_eq_of_unique (s ∘ ⇑e) (e.symm k) ?_ ?_
    · simpa only [Function.comp_apply, Equiv.apply_symm_apply] using hk
    · intro j hj
      exact (Equiv.eq_symm_apply e).mpr (hu (e j) hj)
  by_cases hok : sourceOK s k
  · rw [singleCompute_ok g (s ∘ ⇑e) (e.symm k) h2 ((sourceOK_comp s e k).mpr hok),
      singleCompute_ok g s k h1 hok]
    simp only [Except.map]
    congr 1
    funext i
    rw [singleAccel_comp g s e k i]
    rfl
  · rw [singleCompute_error g (s ∘ ⇑e) (e.symm k) h2
        (fun hh => hok ((sourceOK_comp s e k).mp hh)),
      singleCompute_error g s k h1 hok]
    rfl

/-- C2: computeAccelerations is equivariant under permutation of the particle
sequence when the designated source is identified by its explicit per-particle
marker (for the single-source variants; the Full variant needs no marker), and
for the Full variant the per-particle sum over source pairs gives the same
result in any summation order. -/
theorem computeAccelerations_perm_equivariant (f : PairTerm) (cor : Corrector)
    {n : ℕ} (s : Fin n → Particle) (e : Equiv.Perm (Fin n))
    (hsrc : cor.variant = Variant.Full ∨
      ∃ k : Fin n, (s k).gr_source = true ∧ ∀ j, (s j).gr_source = true → j = k) :
    computeAccelerations f cor (s ∘ ⇑e) =
        Except.map (fun a => a ∘ ⇑e) (computeAccelerations f cor s) ∧
      ∀ (l : List (Fin n)), l.Perm (List.finRange n) → ∀ i : Fin n,
        (l.map (fullContrib f cor.G cor.c s i)).sum = fullAccel f cor.G cor.c s i := by
  constructor
  · obtain ⟨G, c, v⟩ := cor
    cases v with
    | Full =>
      by_cases hc : noCoincidence s
      · rw [show computeAccelerations f ⟨G, c, Variant.Full⟩ s =
            Except.ok (fullAccel f G c s) from if_pos hc,
          show computeAccelerations f ⟨G, c, Variant.Full⟩ (s ∘ ⇑e) =
            Except.ok (fullAccel f G c (s ∘ ⇑e)) from
              if_pos ((noCoincidence_comp s e).mpr hc)]
        simp only [Except.map]
        congr 1
        funext i
        rw [fullAccel_comp f G c s e i]
        rfl
      · rw [show computeAccelerations f ⟨G, c, Variant.Full⟩ s =
            Except.error RebxError.InvalidState from if_neg hc,
          show computeAccelerations f ⟨G, c, Variant.Full⟩ (s ∘ ⇑e) =
            Except.error RebxError.InvalidState from
              if_neg (fun hh => hc ((noCoincidence_comp s e).mp hh))]
        rfl
    | SingleSource =>
      rcases hsrc with hv | ⟨k, hk, hu⟩
      · exact nomatch hv
      · exact singleCompute_comp (fun t src => f G c t src) s e k hk hu
    | Potential =>
      rcases hsrc with hv | ⟨k, hk, hu⟩
      · exact nomatch hv
      · exact singleCompute_comp
          (fun t src => potentialAccel G c src.m (t.pos - src.pos)) s e k hk hu
  · intro l hl i
    unfold fullAccel
    rw [Fin.sum_univ_def]
    exact (hl.map (fullContrib f cor.G cor.c s i)).sum_eq

/-- Witness for C2: swapping the two particles of the concrete state (the
source being marked, not index-designated) permutes the result. -/
theorem computeAccelerations_perm_equivariant_witness :
    (∃ k : Fin 2, (state2 k).gr_source = true ∧
        ∀ j, (state2 j).gr_source = true → j = k) ∧
      computeAccelerations samplePairTerm corSingle (state2 ∘ ⇑permSwap01) =
        Except.map (fun a => a ∘ ⇑permSwap01)
          (computeAccelerations samplePairTerm corSingle state2) :=
  ⟨by decide,
    (computeAccelerations_perm_equivariant samplePairTerm corSingle state2
      permSwap01 (Or.inr (by decide))).1⟩

end RebxGR
